import Mathlib

/-!
Shallow embedding of the AI-Distilled three-stage pipeline
(src/ingestion.py, src/distillation.py, src/synthesizer.py).

Modelling conventions:
* The SQLite `articles` table is a `Store`: a list of `Row`s in insertion
  (ascending rowid) order together with the next rowid to assign
  (`ORDER BY rowid DESC` is `List.reverse`).
* Timestamps (`published_at`, and SQLite's `datetime('now','-24 hours')`)
  are modelled as `Int` instants ordered like the ISO strings the code
  stores and compares.
* External services (feed parsing, page fetching after tenacity retries,
  transcript retrieval, the Gemini calls after their 6 bounded retries,
  OpenAI TTS, pydantic's `HttpUrl` validator) are oracles: pure functions
  returning `Option` (`none` = the call/validation ultimately failed and
  raised).  A SQLite transaction is all-or-nothing: an exception before
  `commit` leaves the state as it was (`conn.rollback()`).
-/

/-- One row of the `articles` table (src/ingestion.py `setup_database`).
`industry_tag` is the nullable category column; `processed` and
`synthesized` default to false at insert. -/
structure Article where
  id : String
  source : String
  title : String
  url : String
  raw_text : String
  summary : String
  industry_tag : Option String
  audio_path : Option String
  published_at : Int
  processed : Bool
  synthesized : Bool
  deriving DecidableEq, Repr

/-- A stored row: the store-assigned rowid (`insertion_sequence`) plus the
article fields. -/
structure Row where
  seq : Nat
  art : Article
  deriving DecidableEq, Repr

/-- The `articles` table: rows in ascending-rowid order plus the next rowid. -/
structure Store where
  rows : List Row
  next : Nat
  deriving DecidableEq, Repr

/-- `INSERT` assigns the next rowid and appends. -/
def insertArt (s : Store) (a : Article) : Store :=
  { rows := s.rows ++ [⟨s.next, a⟩], next := s.next + 1 }

/-- The ids currently present (`SELECT 1 FROM articles WHERE id = ?`). -/
def idsList (s : Store) : List String :=
  s.rows.map fun r => r.art.id

/-- Existence check by primary key. -/
def existsId (s : Store) (i : String) : Bool :=
  s.rows.any fun r => r.art.id == i

/-- Python's `not raw_text or not raw_text.strip()`: the string is empty
or whitespace-only, i.e. every character is whitespace. -/
def isBlank (s : String) : Bool :=
  s.toList.all Char.isWhitespace

/-- Substring search over character lists (structural recursion). -/
def subAt : List Char → List Char → Bool
  | _, [] => true
  | [], _ :: _ => false
  | c :: rest, pat => pat.isPrefixOf (c :: rest) || subAt rest pat

/-- Substring test (Python's `"ArXiv" in source_name`, `'audio' in type`). -/
def containsSub (s pat : String) : Bool :=
  subAt s.toList pat.toList

/-! ## Ingestion (src/ingestion.py) -/

/-- One feedparser entry, with the fields `process_feed` reads
(`entry.get('id'/'link'/'title'/'summary')`, the parsed published/updated
timestamps, and the enclosure list as (type, href) pairs). -/
structure FeedEntry where
  entry_id : Option String
  link : Option String
  title : Option String
  summary : Option String
  published : Option Int
  updated : Option Int
  enclosures : List (String × String)
  deriving DecidableEq, Repr

/-- External collaborators of the collector, as deterministic oracles. -/
structure IngestOracles where
  /-- `feedparser.parse` (`none` = it raised). -/
  parseFeed : String → Option (List FeedEntry)
  /-- `fetch_url_content` + `extract_text_from_html` on an article URL
  (`none` = fetch failed after its 5 retries). -/
  fetchExtract : String → Option String
  /-- `fetch_url_content` on the channel videos page followed by the
  `"videoId"` regex (`none` = fetch failed). -/
  listVideos : String → Option (List String)
  /-- Video page fetch with the title and `publishDate` regexes:
  `none` = fetch failed, otherwise the two optional regex matches. -/
  videoMeta : String → Option (Option String × Option Int)
  /-- Transcript retrieval, already joined with spaces (`none` = it raised). -/
  transcript : String → Option String
  /-- pydantic `HttpUrl` validation. -/
  validUrl : String → Bool
  /-- `datetime.now(timezone.utc)`. -/
  now : Int

/-- First audio enclosure href, as the `for enc in entry.enclosures` loop. -/
def firstAudio (encs : List (String × String)) : Option String :=
  (encs.find? fun e => containsSub e.1 "audio").map fun e => e.2

/-- `published_at`: feed-declared published, else updated, else now. -/
def derivePub (now : Int) (e : FeedEntry) : Int :=
  match e.published with
  | some t => t
  | none =>
    match e.updated with
    | some t => t
    | none => now

/-- The id the RSS branch derives: `entry.get('id', url)`. -/
def rssId (e : FeedEntry) : String :=
  e.entry_id.getD (e.link.getD "")

/-- The article the RSS branch would insert for an entry, or `none` if
pydantic validation fails (`title` min_length 1, `url` must be a valid
HTTP URL). `raw_text` starts as the feed summary and is replaced by the
extracted page text when the source is not ArXiv, the entry has no audio
enclosure, the fetch succeeds and the extraction is non-empty. -/
def rssNew (o : IngestOracles) (src : String) (e : FeedEntry) : Option Article :=
  let url := e.link.getD ""
  let title := e.title.getD "No Title"
  let summaryv := e.summary.getD ""
  let audio := firstAudio e.enclosures
  let raw_text :=
    if !containsSub src "ArXiv" && audio.isNone then
      match o.fetchExtract url with
      | some t => if t == "" then summaryv else t
      | none => summaryv
    else summaryv
  if title.length ≥ 1 && o.validUrl url then
    some { id := rssId e, source := src, title := title, url := url,
           raw_text := raw_text, summary := summaryv, industry_tag := none,
           audio_path := audio, published_at := derivePub o.now e,
           processed := false, synthesized := false }
  else none

/-- The id the video branch derives: `article_id = f"yt:{vid}"`. -/
def vidId (vid : String) : String :=
  "yt:" ++ vid

/-- The watch URL built from the video id. -/
def vidUrl (vid : String) : String :=
  "https://www.youtube.com/watch?v=" ++ vid

/-- The title recovered from the video page: the `<title>` regex match
with ' - YouTube' removed, falling back to a synthetic title when the
regex missed or the page fetch raised. -/
def vidTitle (o : IngestOracles) (vid : String) : String :=
  match o.videoMeta vid with
  | some (some t, _) => t.replace " - YouTube" ""
  | some (none, _) => "YouTube Video " ++ vid
  | none => "YouTube Video " ++ vid

/-- The publish time recovered from the video page's `publishDate` regex,
falling back to the current time. -/
def vidPub (o : IngestOracles) (vid : String) : Int :=
  match o.videoMeta vid with
  | some (_, some p) => p
  | some (_, none) => o.now
  | none => o.now

/-- The article the video branch would insert for a video id, or `none`
if the transcript fetch raised or validation fails. `summary` is the
500-char prefix of the transcript. -/
def vidNew (o : IngestOracles) (src vid : String) : Option Article :=
  match o.transcript vid with
  | none => none
  | some raw =>
    if (vidTitle o vid).length ≥ 1 && o.validUrl (vidUrl vid) then
      some { id := vidId vid, source := src, title := vidTitle o vid,
             url := vidUrl vid, raw_text := raw,
             summary := if raw.length > 500 then raw.take 500 ++ "..." else raw,
             industry_tag := none, audio_path := none,
             published_at := vidPub o vid, processed := false,
             synthesized := false }
    else none

/-- One per-entry iteration of `process_feed`: existence check by the
derived id immediately before insert; skip when present; a failure while
building the article (oracle raised / validation failed) rolls back that
entry only. -/
def ingestStep (idOf : α → String) (mk : α → Option Article)
    (s : Store) (e : α) : Store :=
  if existsId s (idOf e) then s
  else
    match mk e with
    | some a => insertArt s a
    | none => s

/-- Deduplicate while preserving first-seen order
(`get_latest_youtube_videos`). -/
def dedupFirstSeen (l : List String) : List String :=
  l.foldl (fun acc v => if acc.contains v then acc else acc ++ [v]) []

/-- The up-to-5 video ids, most-recent-first as the platform presents
them (empty when the channel page fetch raised). -/
def presentedVids (o : IngestOracles) (url : String) : List String :=
  match o.listVideos url with
  | none => []
  | some l => (dedupFirstSeen l).take 5

/-- The up-to-5 feed entries, most-recent-first as the feed presents them. -/
def presentedEntries (o : IngestOracles) (url : String) : List FeedEntry :=
  match o.parseFeed url with
  | none => []
  | some l => l.take 5

inductive FeedKind
  | rss
  | youtube
  deriving DecidableEq, Repr

structure FeedConfig where
  source : String
  url : String
  kind : FeedKind
  deriving DecidableEq, Repr

/-- `process_feed`: the presented list is reversed so the oldest entry is
inserted first and the newest gets the highest rowid. -/
def processFeed (o : IngestOracles) (cfg : FeedConfig) (s : Store) : Store :=
  match cfg.kind with
  | .youtube =>
    (presentedVids o cfg.url).reverse.foldl
      (ingestStep vidId (vidNew o cfg.source)) s
  | .rss =>
    (presentedEntries o cfg.url).reverse.foldl
      (ingestStep rssId (rssNew o cfg.source)) s

/-- One collection pass of `main`: every registered feed in order. -/
def runIngestion (o : IngestOracles) (feeds : List FeedConfig) (s : Store) : Store :=
  feeds.foldl (fun st f => processFeed o f st) s

/-! ## Distillation (src/distillation.py) -/

/-- Structured LLM output (`ArticleSummary`: `industry_tag`, `summary`). -/
structure LlmResult where
  industry_tag : String
  summary : String
  deriving DecidableEq, Repr

/-- The guard-token file: `none` = no file, `some none` = present but
unreadable (`int(...)` or the read raised), `some (some p)` = names pid `p`. -/
abbrev GuardToken := Option (Option Nat)

/-- The abort decision `distillation_job` actually makes: abort exactly
when the token is readable and names a pid other than the caller's.
(An unreadable token falls into the `except ... pass` branch.) -/
def guardBlocks (lock : GuardToken) (selfPid : Nat) : Bool :=
  match lock with
  | some (some p) => p != selfPid
  | _ => false

/-- Modelled from the spec: the abort decision as §4.2 words it — abort
only when the named process "is still alive and is not the caller"; a
token naming a dead process is stale and the worker proceeds. The
repository's `distillation_job` contains no liveness check to translate,
so this definition exists only to compare the spec's wording with
`guardBlocks`. -/
def guardBlocksClaimed (alive : Nat → Bool) (lock : GuardToken) (selfPid : Nat) : Bool :=
  match lock with
  | some (some p) => p != selfPid && alive p
  | _ => false

/-- `UPDATE articles SET ... WHERE id = ?`. -/
def updateById (arts : List Article) (i : String) (f : Article → Article) :
    List Article :=
  arts.map fun a => if a.id == i then f a else a

/-- One loop iteration of `distillation_job` over a snapshot record
(`id`, `raw_text`), acting on the current table and the log of texts sent
to the language model. Blank text: mark processed and commit, no LLM
call. Otherwise call the LLM (after its 6 bounded retries): on success
commit summary/category/processed as one unit; on exhausted retries roll
back that item's uncommitted change only. -/
def distillStep (llm : String → Option LlmResult)
    (st : List Article × List String) (rec : Article) :
    List Article × List String :=
  if isBlank rec.raw_text then
    (updateById st.1 rec.id (fun a => { a with processed := true }), st.2)
  else
    match llm rec.raw_text with
    | some r =>
      (updateById st.1 rec.id
        (fun a => { a with summary := r.summary,
                           industry_tag := some r.industry_tag,
                           processed := true }),
       st.2 ++ [rec.raw_text])
    | none => (st.1, st.2 ++ [rec.raw_text])

/-- Outcome of one `distillation_job` invocation. -/
structure DistillResult where
  arts : List Article
  /-- Texts handed to `generate_summary_and_category`, in order. -/
  llmCalls : List String
  /-- The pid written to the guard token before any work (`none` when the
  invocation aborted at the guard). -/
  tokenWritten : Option Nat
  deriving DecidableEq, Repr

/-- `distillation_job`: guard check, then overwrite the token with the
caller's pid, then fold over the snapshot of unprocessed records. -/
def distillation_job (lock : GuardToken) (selfPid : Nat)
    (llm : String → Option LlmResult) (arts : List Article) : DistillResult :=
  if guardBlocks lock selfPid then
    { arts := arts, llmCalls := [], tokenWritten := none }
  else
    let records := arts.filter fun a => !a.processed
    let res := records.foldl (distillStep llm) (arts, [])
    { arts := res.1, llmCalls := res.2, tokenWritten := some selfPid }

/-! ## Synthesis (src/synthesizer.py) -/

/-- Structured output of `generate_executive_report`. -/
structure ExecutiveSummary where
  whats_new_today : String
  daily_brief_summary : String
  key_takeaways : String
  deriving DecidableEq, Repr

/-- One `executive_summaries` row. -/
structure Report where
  whats_new_today : String
  daily_brief_summary : String
  key_takeaways : String
  audio_path : String
  deriving DecidableEq, Repr

/-- The database state the synthesis worker touches. -/
structure SynthState where
  store : Store
  reports : List Report
  deriving DecidableEq, Repr

/-- External collaborators of `synthesis_job` (each LLM call already
wrapped in its 6 bounded retries; `none` = it ultimately raised). -/
structure SynthOracles where
  genReport : String → Option ExecutiveSummary
  genScript : String → Option String
  /-- OpenAI TTS rendering of the script (`none` = raised, e.g. no key). -/
  genAudio : String → Option Unit
  /-- `datetime('now')` for the 24-hour window. -/
  now : Int
  /-- `datetime.now().strftime('%Y%m%d_%H%M%S')` for the artifact name. -/
  nowStamp : String

/-- The designated live-briefing source. -/
def briefSource : String := "The AI Daily Brief"

/-- `now - 24 hours ≤ published_at` (the `published_at >=
datetime('now','-24 hours')` filter, with instants as `Int` seconds). -/
def withinWindow (now pub : Int) : Bool :=
  now - 86400 ≤ pub

/-- `SELECT ... WHERE processed = 1 AND synthesized = 0 ORDER BY rowid DESC`. -/
def allRecordsQ (rows : List Row) : List Row :=
  (rows.filter fun r => r.art.processed && !r.art.synthesized).reverse

/-- `SELECT ... WHERE source = 'The AI Daily Brief' AND published_at >=
datetime('now','-24 hours') ORDER BY rowid DESC LIMIT 1`. -/
def aiBriefQ (now : Int) (rows : List Row) : Option Row :=
  ((rows.filter fun r =>
      r.art.source == briefSource && withinWindow now r.art.published_at).reverse).head?

/-- `llm_records`: the unsynthesized processed rows whose source is not
'The AI Daily Brief', plus the in-window brief row appended when its id
is not already present. -/
def llmBatch (now : Int) (rows : List Row) : List Row :=
  match aiBriefQ now rows with
  | some b =>
    if ((allRecordsQ rows).filter fun r => r.art.source != briefSource).any
        (fun r => r.art.id == b.art.id)
    then (allRecordsQ rows).filter fun r => r.art.source != briefSource
    else ((allRecordsQ rows).filter fun r => r.art.source != briefSource) ++ [b]
  | none => (allRecordsQ rows).filter fun r => r.art.source != briefSource

/-- Union by id keeping the left list first and dropping right-hand rows
whose id already occurs on the left (the spec's "union by `id`"). -/
def unionById (a b : List Row) : List Row :=
  a ++ b.filter fun r => !(a.any fun x => x.art.id == r.art.id)

/-- The batch as the spec's selection algorithm words it: all processed,
unsynthesized rows (most-recent-first) unioned by id with the in-window
live-briefing row. -/
def specBatchClaimed (now : Int) (rows : List Row) : List Row :=
  unionById (allRecordsQ rows) (aiBriefQ now rows).toList

/-- The batch with the live-briefing source excluded from the first leg:
unsynthesized processed rows from other sources, unioned by id with the
in-window live-briefing row. -/
def specBatchAmended (now : Int) (rows : List Row) : List Row :=
  unionById ((allRecordsQ rows).filter fun r => r.art.source != briefSource)
    (aiBriefQ now rows).toList

/-- `article_ids`: every row of `all_records` (stale live-briefing rows
included) plus the in-window brief id when not already among them. -/
def batchIds (now : Int) (rows : List Row) : List String :=
  match aiBriefQ now rows with
  | some b =>
    if ((allRecordsQ rows).map fun r => r.art.id).contains b.art.id
    then (allRecordsQ rows).map fun r => r.art.id
    else ((allRecordsQ rows).map fun r => r.art.id) ++ [b.art.id]
  | none => (allRecordsQ rows).map fun r => r.art.id

/-- `UPDATE articles SET synthesized = 1 WHERE id = ?` executed for each
batch id. -/
def markSynth (s : Store) (ids : List String) : Store :=
  { s with
    rows := s.rows.map fun r =>
      if ids.contains r.art.id then
        { r with art := { r.art with synthesized := true } }
      else r }

/-- The `Source:`/`Title:`/`Summary:` corpus for the report prompt. -/
def aggSummaries (batch : List Row) : String :=
  String.intercalate "\n\n" (batch.map fun r =>
    "Source: " ++ r.art.source ++ "\nTitle: " ++ r.art.title ++
      "\nSummary: " ++ r.art.summary)

/-- The `Source:`/`Title:`/`Content:` corpus for the script prompt. -/
def aggRawText (batch : List Row) : String :=
  String.intercalate "\n\n" (batch.map fun r =>
    "Source: " ++ r.art.source ++ "\nTitle: " ++ r.art.title ++
      "\nContent: " ++ r.art.raw_text)

/-- `synthesis_job`: select, aggregate, generate report then script then
audio, and commit the report insert together with the `synthesized`
flags; any failure from aggregation onward rolls the transaction back. -/
def synthesis_job (o : SynthOracles) (st : SynthState) : SynthState :=
  if (allRecordsQ st.store.rows).isEmpty && (aiBriefQ o.now st.store.rows).isNone
  then st
  else if isBlank (aggSummaries (llmBatch o.now st.store.rows)) then st
  else
    match o.genReport (aggSummaries (llmBatch o.now st.store.rows)) with
    | none => st
    | some rep =>
      match o.genScript (aggRawText (llmBatch o.now st.store.rows)) with
      | none => st
      | some script =>
        match o.genAudio script with
        | none => st
        | some _ =>
          { store := markSynth st.store (batchIds o.now st.store.rows),
            reports := st.reports ++
              [{ whats_new_today := rep.whats_new_today,
                 daily_brief_summary := rep.daily_brief_summary,
                 key_takeaways := rep.key_takeaways,
                 audio_path := "podcast_" ++ o.nowStamp ++ ".mp3" }] }

/-! ## Derived notions used by the statements -/

/-- Lookup by primary key (`SELECT ... WHERE id = ?`). -/
def getById (arts : List Article) (i : String) : Option Article :=
  arts.find? fun a => a.id == i

/-- The data-model invariant of spec §3, weakened on its second clause by
what `synthesis_job` actually does: `processed` implies a category or
blank text, and `synthesized` implies `processed` unless the item comes
from the live-briefing source. -/
def weakInv (a : Article) : Bool :=
  (!a.processed || a.industry_tag.isSome || isBlank a.raw_text) &&
  (!a.synthesized || a.processed || a.source == briefSource)

/-- The articles one pass would build for a source, in the presented
(most-recent-first) order, dead entries (failed oracles / validation)
dropped. -/
def passArts (o : IngestOracles) (cfg : FeedConfig) : List Article :=
  match cfg.kind with
  | .youtube => (presentedVids o cfg.url).filterMap (vidNew o cfg.source)
  | .rss => (presentedEntries o cfg.url).filterMap (rssNew o cfg.source)

/-! ## Concrete inputs used by witnesses and counterexamples -/

def exArtBlank : Article :=
  { id := "e1", source := "S", title := "T", url := "u", raw_text := "  ",
    summary := "orig", industry_tag := none, audio_path := none,
    published_at := 0, processed := false, synthesized := false }

def exArtGood : Article :=
  { id := "e2", source := "S", title := "T", url := "u", raw_text := "text",
    summary := "orig2", industry_tag := none, audio_path := none,
    published_at := 0, processed := false, synthesized := false }

def exArtFail : Article :=
  { id := "e3", source := "S", title := "T", url := "u", raw_text := "bad",
    summary := "orig3", industry_tag := none, audio_path := none,
    published_at := 0, processed := false, synthesized := false }

def exLlm : String → Option LlmResult := fun t =>
  if t == "text" then some ⟨"AI", "sum"⟩ else none

def exBriefStale : Article :=
  { id := "b1", source := "The AI Daily Brief", title := "T", url := "u",
    raw_text := "r", summary := "s", industry_tag := some "AI",
    audio_path := none, published_at := 0, processed := true,
    synthesized := false }

def exRowsStale : List Row := [⟨0, exBriefStale⟩]

def exBriefFresh : Article :=
  { id := "b2", source := "The AI Daily Brief", title := "T", url := "u",
    raw_text := "r", summary := "s", industry_tag := none,
    audio_path := none, published_at := 999999, processed := false,
    synthesized := false }

def exStFresh : SynthState :=
  { store := { rows := [⟨0, exBriefFresh⟩], next := 1 }, reports := [] }

def exSynthOk : SynthOracles :=
  { genReport := fun _ => some ⟨"w", "d", "k"⟩,
    genScript := fun _ => some "script",
    genAudio := fun _ => some (),
    now := 1000000, nowStamp := "ts" }

def exSynthNoAudio : SynthOracles :=
  { genReport := fun _ => some ⟨"w", "d", "k"⟩,
    genScript := fun _ => some "script",
    genAudio := fun _ => none,
    now := 1000000, nowStamp := "ts" }

def exIngOracles : IngestOracles :=
  { parseFeed := fun _ => some [],
    fetchExtract := fun _ => none,
    listVideos := fun _ => some ["v2", "v1"],
    videoMeta := fun v => if v == "v2" then some (none, some 10) else some (none, some 5),
    transcript := fun _ => some "hello world",
    validUrl := fun _ => true,
    now := 100 }

def exEmptyStore : Store := { rows := [], next := 1 }

def exCfgYt : FeedConfig :=
  { source := "The AI Daily Brief", url := "chan", kind := .youtube }

/-! ## Basic lemmas -/

theorem updateById_map_id (arts : List Article) (j : String) (f : Article → Article)
    (hf : ∀ a, (f a).id = a.id) :
    (updateById arts j f).map Article.id = arts.map Article.id := by
  induction arts with
  | nil => rfl
  | cons a l ih =>
    simp only [updateById, List.map_cons] at ih ⊢
    by_cases h : (a.id == j)
    · simp only [if_pos h, hf a, ih]
    · simp only [if_neg h, ih]

theorem getById_updateById_self (arts : List Article) (j : String) (f : Article → Article)
    (hf : ∀ a, (f a).id = a.id) :
    getById (updateById arts j f) j = (getById arts j).map f := by
  induction arts with
  | nil => rfl
  | cons a l ih =>
    simp only [getById, updateById, List.map_cons] at ih ⊢
    cases h : (a.id == j) with
    | true =>
      have hfa : ((f a).id == j) = true := by rw [hf a]; exact h
      rw [if_pos rfl, List.find?_cons, List.find?_cons, hfa, h]
      rfl
    | false =>
      rw [if_neg Bool.false_ne_true, List.find?_cons, List.find?_cons, h]
      exact ih

theorem getById_updateById_ne (arts : List Article) (i j : String) (f : Article → Article)
    (hf : ∀ a, (f a).id = a.id) (hij : j ≠ i) :
    getById (updateById arts j f) i = getById arts i := by
  induction arts with
  | nil => rfl
  | cons a l ih =>
    simp only [getById, updateById, List.map_cons] at ih ⊢
    cases h : (a.id == j) with
    | true =>
      have haj : a.id = j := beq_iff_eq.mp h
      have hai : (a.id == i) = false := by
        simp only [beq_eq_false_iff_ne, ne_eq, haj]
        exact hij
      have hfa : ((f a).id == i) = false := by rw [hf a]; exact hai
      rw [if_pos rfl, List.find?_cons, List.find?_cons, hfa, hai]
      exact ih
    | false =>
      rw [if_neg Bool.false_ne_true, List.find?_cons, List.find?_cons]
      cases hai : (a.id == i) with
      | true => rfl
      | false => exact ih

theorem getById_eq_some_of_mem_nodup (arts : List Article) (a : Article)
    (ha : a ∈ arts) (hn : (arts.map Article.id).Nodup) :
    getById arts a.id = some a := by
  induction arts with
  | nil => cases ha
  | cons b l ih =>
    simp only [List.map_cons, List.nodup_cons] at hn
    rcases List.mem_cons.mp ha with rfl | hmem
    · simp [getById, List.find?_cons]
    · have hbna : (b.id == a.id) = false := by
        simp only [beq_eq_false_iff_ne, ne_eq]
        intro heq
        exact hn.1 (heq ▸ List.mem_map_of_mem Article.id hmem)
      simp only [getById] at ih ⊢
      rw [List.find?_cons, hbna]
      exact ih hmem hn.2

theorem eq_of_mem_of_id_eq (arts : List Article) (a b : Article)
    (ha : a ∈ arts) (hb : b ∈ arts) (hn : (arts.map Article.id).Nodup)
    (hid : a.id = b.id) : a = b :=
  List.inj_on_of_nodup_map hn ha hb hid

/-! ## Distillation lemmas -/

theorem distillStep_fst_map_id (llm : String → Option LlmResult)
    (st : List Article × List String) (rec : Article) :
    (distillStep llm st rec).1.map Article.id = st.1.map Article.id := by
  by_cases hb : isBlank rec.raw_text = true
  · simp only [distillStep, if_pos hb]
    exact updateById_map_id _ _ _ (fun a => rfl)
  · simp only [distillStep, if_neg hb]
    cases llm rec.raw_text with
    | some r => exact updateById_map_id _ _ _ (fun a => rfl)
    | none => rfl

theorem getById_distillStep_ne (llm : String → Option LlmResult)
    (st : List Article × List String) (rec : Article) (i : String)
    (hne : rec.id ≠ i) :
    getById (distillStep llm st rec).1 i = getById st.1 i := by
  by_cases hb : isBlank rec.raw_text = true
  · simp only [distillStep, if_pos hb]
    exact getById_updateById_ne _ _ _ _ (fun a => rfl) hne
  · simp only [distillStep, if_neg hb]
    cases llm rec.raw_text with
    | some r => exact getById_updateById_ne _ _ _ _ (fun a => rfl) hne
    | none => rfl

theorem getById_distillStep_processed (llm : String → Option LlmResult)
    (st : List Article × List String) (rec : Article) (i : String) (x : Article)
    (hx : getById st.1 i = some x) (hp : x.processed = true) :
    ∃ y, getById (distillStep llm st rec).1 i = some y ∧ y.processed = true := by
  by_cases hri : rec.id = i
  · subst hri
    by_cases hb : isBlank rec.raw_text = true
    · refine ⟨{ x with processed := true }, ?_, rfl⟩
      simp only [distillStep, if_pos hb]
      rw [getById_updateById_self st.1 rec.id
        (fun a => { a with processed := true }) (fun a => rfl), hx]
      rfl
    · simp only [distillStep, if_neg hb]
      cases hl : llm rec.raw_text with
      | some r =>
        refine ⟨{ x with summary := r.summary,
                         industry_tag := some r.industry_tag,
                         processed := true }, ?_, rfl⟩
        show getById (updateById st.1 rec.id fun a =>
          { a with summary := r.summary, industry_tag := some r.industry_tag,
                   processed := true }) rec.id = _
        rw [getById_updateById_self st.1 rec.id
          (fun a => { a with summary := r.summary,
                             industry_tag := some r.industry_tag,
                             processed := true }) (fun a => rfl), hx]
        rfl
      | none => exact ⟨x, hx, hp⟩
  · rw [getById_distillStep_ne llm st rec i hri]
    exact ⟨x, hx, hp⟩

theorem foldl_distill_skip (llm : String → Option LlmResult)
    (recs : List Article) (st : List Article × List String) (i : String)
    (h : ∀ rec ∈ recs, rec.id = i →
      isBlank rec.raw_text = false ∧ llm rec.raw_text = none) :
    getById (recs.foldl (distillStep llm) st).1 i = getById st.1 i := by
  induction recs generalizing st with
  | nil => rfl
  | cons rec l ih =>
    rw [List.foldl_cons, ih _ (fun r hr => h r (List.mem_cons_of_mem rec hr))]
    by_cases hri : rec.id = i
    · obtain ⟨hb, hl⟩ := h rec (List.mem_cons_self rec l) hri
      simp only [distillStep, hb, Bool.false_eq_true, if_false, hl]
    · exact getById_distillStep_ne llm st rec i hri

theorem foldl_distill_ne (llm : String → Option LlmResult)
    (recs : List Article) (st : List Article × List String) (i : String)
    (h : ∀ rec ∈ recs, rec.id ≠ i) :
    getById (recs.foldl (distillStep llm) st).1 i = getById st.1 i := by
  induction recs generalizing st with
  | nil => rfl
  | cons rec l ih =>
    rw [List.foldl_cons, ih _ (fun r hr => h r (List.mem_cons_of_mem rec hr))]
    exact getById_distillStep_ne llm st rec i (h rec (List.mem_cons_self rec l))

theorem foldl_distill_processed (llm : String → Option LlmResult)
    (recs : List Article) (st : List Article × List String) (i : String) (x : Article)
    (hx : getById st.1 i = some x) (hp : x.processed = true) :
    ∃ y, getById (recs.foldl (distillStep llm) st).1 i = some y ∧
      y.processed = true := by
  induction recs generalizing st x with
  | nil => exact ⟨x, hx, hp⟩
  | cons rec l ih =>
    rw [List.foldl_cons]
    obtain ⟨y, hy, hyp⟩ := getById_distillStep_processed llm st rec i x hx hp
    exact ih _ y hy hyp

theorem foldl_distill_calls (llm : String → Option LlmResult)
    (recs : List Article) (st : List Article × List String) :
    ∀ t ∈ (recs.foldl (distillStep llm) st).2,
      t ∈ st.2 ∨ ∃ rec ∈ recs, t = rec.raw_text ∧ isBlank rec.raw_text = false := by
  induction recs generalizing st with
  | nil => exact fun t ht => Or.inl ht
  | cons rec l ih =>
    intro t ht
    rw [List.foldl_cons] at ht
    rcases ih (distillStep llm st rec) t ht with hin | ⟨r, hr, ht', hb⟩
    · by_cases hb : isBlank rec.raw_text = true
      · simp only [distillStep, if_pos hb] at hin
        exact Or.inl hin
      · simp only [distillStep, if_neg hb] at hin
        cases hl : llm rec.raw_text with
        | some r =>
          rw [hl] at hin
          simp only [List.mem_append, List.mem_singleton] at hin
          rcases hin with hin | rfl
          · exact Or.inl hin
          · exact Or.inr ⟨rec, List.mem_cons_self rec l, rfl,
              Bool.of_not_eq_true hb⟩
        | none =>
          rw [hl] at hin
          simp only [List.mem_append, List.mem_singleton] at hin
          rcases hin with hin | rfl
          · exact Or.inl hin
          · exact Or.inr ⟨rec, List.mem_cons_self rec l, rfl,
              Bool.of_not_eq_true hb⟩
    · exact Or.inr ⟨r, List.mem_cons_of_mem rec hr, ht', hb⟩

theorem getById_distillStep_self_blank (llm : String → Option LlmResult)
    (st : List Article × List String) (rec : Article)
    (hb : isBlank rec.raw_text = true) :
    getById (distillStep llm st rec).1 rec.id
      = (getById st.1 rec.id).map (fun a => { a with processed := true }) := by
  simp only [distillStep, if_pos hb]
  exact getById_updateById_self st.1 rec.id _ (fun a => rfl)

theorem distillStep_fail (llm : String → Option LlmResult)
    (st : List Article × List String) (rec : Article)
    (hb : isBlank rec.raw_text = false) (hl : llm rec.raw_text = none) :
    (distillStep llm st rec).1 = st.1 := by
  simp only [distillStep, hb, Bool.false_eq_true, if_false, hl]

theorem getById_distillStep_self_some (llm : String → Option LlmResult)
    (st : List Article × List String) (rec : Article) (r : LlmResult)
    (hb : isBlank rec.raw_text = false) (hl : llm rec.raw_text = some r) :
    getById (distillStep llm st rec).1 rec.id
      = (getById st.1 rec.id).map (fun a =>
          { a with summary := r.summary, industry_tag := some r.industry_tag,
                   processed := true }) := by
  simp only [distillStep, hb, Bool.false_eq_true, if_false, hl]
  exact getById_updateById_self st.1 rec.id _ (fun a => rfl)

theorem ids_split_ne (l1 l2 : List Article) (a : Article)
    (hn : ((l1 ++ a :: l2).map Article.id).Nodup) :
    (∀ r ∈ l1, r.id ≠ a.id) ∧ (∀ r ∈ l2, r.id ≠ a.id) := by
  rw [List.map_append, List.map_cons, List.nodup_append] at hn
  obtain ⟨h1, h2, hd⟩ := hn
  refine ⟨fun r hr heq => ?_, fun r hr heq => ?_⟩
  · exact hd (List.mem_map_of_mem Article.id hr)
      (by rw [heq]; exact List.mem_cons_self _ _)
  · rw [List.nodup_cons] at h2
    exact h2.1 (heq ▸ List.mem_map_of_mem Article.id hr)

theorem nodup_filter_ids (arts : List Article) (p : Article → Bool)
    (hn : (arts.map Article.id).Nodup) :
    ((arts.filter p).map Article.id).Nodup :=
  List.Nodup.sublist (List.Sublist.map Article.id (List.filter_sublist arts)) hn

theorem distill_run_blank (llm : String → Option LlmResult)
    (arts : List Article) (a : Article)
    (hn : (arts.map Article.id).Nodup) (ha : a ∈ arts)
    (hp : a.processed = false) (hb : isBlank a.raw_text = true) :
    getById ((arts.filter fun x => !x.processed).foldl
        (distillStep llm) (arts, [])).1 a.id
      = some { a with processed := true } := by
  have hmem : a ∈ arts.filter fun x => !x.processed :=
    List.mem_filter.mpr ⟨ha, by rw [hp]; rfl⟩
  obtain ⟨l1, l2, hsplit⟩ := List.append_of_mem hmem
  have hrn : (((arts.filter fun x => !x.processed).map Article.id)).Nodup :=
    nodup_filter_ids arts _ hn
  rw [hsplit] at hrn
  obtain ⟨hne1, hne2⟩ := ids_split_ne l1 l2 a hrn
  rw [hsplit, List.foldl_append, List.foldl_cons]
  rw [foldl_distill_ne llm l2 _ a.id (fun r hr => hne2 r hr)]
  rw [getById_distillStep_self_blank llm _ a hb]
  rw [foldl_distill_ne llm l1 (arts, []) a.id (fun r hr => hne1 r hr)]
  rw [getById_eq_some_of_mem_nodup arts a ha hn]
  rfl

theorem distill_run_fail (llm : String → Option LlmResult)
    (arts : List Article) (a : Article)
    (hn : (arts.map Article.id).Nodup) (ha : a ∈ arts)
    (hb : isBlank a.raw_text = false) (hl : llm a.raw_text = none) :
    getById ((arts.filter fun x => !x.processed).foldl
        (distillStep llm) (arts, [])).1 a.id
      = some a := by
  have hskip : ∀ rec ∈ arts.filter fun x => !x.processed, rec.id = a.id →
      isBlank rec.raw_text = false ∧ llm rec.raw_text = none := by
    intro rec hrec hid
    have hrec' : rec ∈ arts := (List.mem_filter.mp hrec).1
    have : rec = a := eq_of_mem_of_id_eq arts rec a hrec' ha hn hid
    rw [this]
    exact ⟨hb, hl⟩
  rw [foldl_distill_skip llm _ _ a.id hskip]
  exact getById_eq_some_of_mem_nodup arts a ha hn

theorem distill_run_success (llm : String → Option LlmResult)
    (arts : List Article) (b : Article)
    (hn : (arts.map Article.id).Nodup) (hb : b ∈ arts)
    (hp : b.processed = false)
    (hok : isBlank b.raw_text = true ∨ ∃ r, llm b.raw_text = some r) :
    ∃ y, getById ((arts.filter fun x => !x.processed).foldl
        (distillStep llm) (arts, [])).1 b.id
      = some y ∧ y.processed = true := by
  have hmem : b ∈ arts.filter fun x => !x.processed :=
    List.mem_filter.mpr ⟨hb, by rw [hp]; rfl⟩
  obtain ⟨l1, l2, hsplit⟩ := List.append_of_mem hmem
  rw [hsplit, List.foldl_append, List.foldl_cons]
  have hget : getById ((List.foldl (distillStep llm) (arts, []) l1)).1 b.id =
      getById arts b.id := by
    have hrn : (((arts.filter fun x => !x.processed).map Article.id)).Nodup :=
      nodup_filter_ids arts _ hn
    rw [hsplit] at hrn
    obtain ⟨hne1, _⟩ := ids_split_ne l1 l2 b hrn
    exact foldl_distill_ne llm l1 (arts, []) b.id (fun r hr => hne1 r hr)
  rw [getById_eq_some_of_mem_nodup arts b hb hn] at hget
  rcases hok with hblank | ⟨r, hr⟩
  · have hstep := getById_distillStep_self_blank llm
      (List.foldl (distillStep llm) (arts, []) l1) b hblank
    rw [hget] at hstep
    exact foldl_distill_processed llm l2 _ b.id _ hstep rfl
  · by_cases hblank : isBlank b.raw_text = true
    · have hstep := getById_distillStep_self_blank llm
        (List.foldl (distillStep llm) (arts, []) l1) b hblank
      rw [hget] at hstep
      exact foldl_distill_processed llm l2 _ b.id _ hstep rfl
    · have hstep := getById_distillStep_self_some llm
        (List.foldl (distillStep llm) (arts, []) l1) b r
        (Bool.of_not_eq_true hblank) hr
      rw [hget] at hstep
      exact foldl_distill_processed llm l2 _ b.id _ hstep rfl

theorem updateById_map_pairs (arts : List Article) (j : String) (f : Article → Article)
    (hf : ∀ a, (f a).id = a.id ∧ (f a).raw_text = a.raw_text) :
    (updateById arts j f).map (fun a => (a.id, a.raw_text))
      = arts.map fun a => (a.id, a.raw_text) := by
  induction arts with
  | nil => rfl
  | cons a l ih =>
    simp only [updateById, List.map_cons] at ih ⊢
    by_cases h : (a.id == j)
    · simp only [if_pos h, (hf a).1, (hf a).2, ih]
    · simp only [if_neg h, ih]

theorem distillStep_pairs (llm : String → Option LlmResult)
    (st : List Article × List String) (rec : Article) :
    (distillStep llm st rec).1.map (fun a => (a.id, a.raw_text))
      = st.1.map fun a => (a.id, a.raw_text) := by
  by_cases hb : isBlank rec.raw_text = true
  · simp only [distillStep, if_pos hb]
    exact updateById_map_pairs _ _ _ (fun a => ⟨rfl, rfl⟩)
  · simp only [distillStep, if_neg hb]
    cases llm rec.raw_text with
    | some r => exact updateById_map_pairs _ _ _ (fun a => ⟨rfl, rfl⟩)
    | none => rfl

theorem raw_of_pairs (arts st1 : List Article) (rec a : Article)
    (hn : (arts.map Article.id).Nodup) (hrec : rec ∈ arts)
    (hpair : st1.map (fun x => (x.id, x.raw_text))
      = arts.map fun x => (x.id, x.raw_text))
    (ha : a ∈ st1) (hid : a.id = rec.id) : a.raw_text = rec.raw_text := by
  have hmem : (a.id, a.raw_text) ∈ arts.map fun x => (x.id, x.raw_text) := by
    rw [← hpair]
    exact List.mem_map_of_mem _ ha
  obtain ⟨a0, ha0, heq⟩ := List.mem_map.mp hmem
  have hid0 : a0.id = a.id := congrArg Prod.fst heq
  have hraw0 : a0.raw_text = a.raw_text := congrArg Prod.snd heq
  have ha0rec : a0 = rec :=
    eq_of_mem_of_id_eq arts a0 rec ha0 hrec hn (by rw [hid0, hid])
  rw [← hraw0, ha0rec]

theorem distillStep_weakInv (llm : String → Option LlmResult)
    (arts : List Article) (st : List Article × List String) (rec : Article)
    (hn : (arts.map Article.id).Nodup) (hrec : rec ∈ arts)
    (hpair : st.1.map (fun x => (x.id, x.raw_text))
      = arts.map fun x => (x.id, x.raw_text))
    (hinv : ∀ a ∈ st.1, weakInv a = true) :
    ∀ a ∈ (distillStep llm st rec).1, weakInv a = true := by
  intro a' ha'
  by_cases hb : isBlank rec.raw_text = true
  · simp only [distillStep, if_pos hb, updateById] at ha'
    obtain ⟨a, ha, rfl⟩ := List.mem_map.mp ha'
    by_cases h : (a.id == rec.id) = true
    · simp only [if_pos h]
      have hraw : a.raw_text = rec.raw_text :=
        raw_of_pairs arts st.1 rec a hn hrec hpair ha (beq_iff_eq.mp h)
      simp only [weakInv, Bool.not_true, Bool.false_or, hraw, hb,
        Bool.or_true, Bool.true_and, Bool.or_true, Bool.and_true]
      simp [hb, hraw]
    · simp only [if_neg h]
      exact hinv a ha
  · simp only [distillStep, if_neg hb] at ha'
    cases hl : llm rec.raw_text with
    | some r =>
      rw [hl] at ha'
      simp only [updateById] at ha'
      obtain ⟨a, ha, rfl⟩ := List.mem_map.mp ha'
      by_cases h : (a.id == rec.id) = true
      · simp only [if_pos h]
        simp [weakInv]
      · simp only [if_neg h]
        exact hinv a ha
    | none =>
      rw [hl] at ha'
      exact hinv a' ha'

theorem foldl_distill_weakInv (llm : String → Option LlmResult)
    (arts : List Article) (recs : List Article) (st : List Article × List String)
    (hn : (arts.map Article.id).Nodup) (hrecs : ∀ r ∈ recs, r ∈ arts)
    (hpair : st.1.map (fun x => (x.id, x.raw_text))
      = arts.map fun x => (x.id, x.raw_text))
    (hinv : ∀ a ∈ st.1, weakInv a = true) :
    ∀ a ∈ (recs.foldl (distillStep llm) st).1, weakInv a = true := by
  induction recs generalizing st with
  | nil => exact hinv
  | cons rec l ih =>
    rw [List.foldl_cons]
    refine ih _ (fun r hr => hrecs r (List.mem_cons_of_mem rec hr)) ?_ ?_
    · rw [distillStep_pairs]
      exact hpair
    · exact distillStep_weakInv llm arts st rec hn
        (hrecs rec (List.mem_cons_self rec l)) hpair hinv

/-! ## Ingestion lemmas -/

theorem idsList_insertArt (s : Store) (a : Article) :
    idsList (insertArt s a) = idsList s ++ [a.id] := by
  simp [idsList, insertArt]

theorem existsId_iff (s : Store) (i : String) :
    existsId s i = true ↔ i ∈ idsList s := by
  simp only [existsId, idsList, List.any_eq_true, List.mem_map, beq_iff_eq]

theorem existsId_false_not_mem (s : Store) (i : String)
    (h : existsId s i = false) : ¬ i ∈ idsList s := by
  intro hmem
  rw [(existsId_iff s i).mpr hmem] at h
  cases h

theorem ids_mono_ingestStep {α : Type} (idOf : α → String) (mk : α → Option Article)
    (s : Store) (e : α) (i : String) (h : i ∈ idsList s) :
    i ∈ idsList (ingestStep idOf mk s e) := by
  unfold ingestStep
  by_cases hex : existsId s (idOf e) = true
  · rw [if_pos hex]
    exact h
  · rw [if_neg hex]
    cases mk e with
    | some a =>
      rw [idsList_insertArt]
      exact List.mem_append_left _ h
    | none => exact h

theorem ids_mem_ingestStep {α : Type} (idOf : α → String) (mk : α → Option Article)
    (hid : ∀ e a, mk e = some a → a.id = idOf e)
    (s : Store) (e : α) (a : Article) (hmk : mk e = some a) :
    idOf e ∈ idsList (ingestStep idOf mk s e) := by
  unfold ingestStep
  by_cases hex : existsId s (idOf e) = true
  · rw [if_pos hex]
    exact (existsId_iff s (idOf e)).mp hex
  · rw [if_neg hex, hmk]
    rw [idsList_insertArt, hid e a hmk]
    exact List.mem_append_right _ (List.mem_singleton.mpr rfl)

theorem foldl_ingest_fix {α : Type} (idOf : α → String) (mk : α → Option Article)
    (l : List α) (t : Store)
    (h : ∀ e ∈ l, mk e = none ∨ idOf e ∈ idsList t) :
    List.foldl (ingestStep idOf mk) t l = t := by
  induction l with
  | nil => rfl
  | cons e l' ih =>
    have hstep : ingestStep idOf mk t e = t := by
      unfold ingestStep
      by_cases hex : existsId t (idOf e) = true
      · rw [if_pos hex]
      · rw [if_neg hex]
        rcases h e (List.mem_cons_self e l') with hnone | hmem
        · rw [hnone]
        · exact absurd ((existsId_iff t (idOf e)).mpr hmem) hex
    rw [List.foldl_cons, hstep]
    exact ih fun e' he' => h e' (List.mem_cons_of_mem e he')

theorem ids_mono_foldl_ingest {α : Type} (idOf : α → String) (mk : α → Option Article)
    (l : List α) (s : Store) (i : String) (h : i ∈ idsList s) :
    i ∈ idsList (List.foldl (ingestStep idOf mk) s l) := by
  induction l generalizing s with
  | nil => exact h
  | cons e l' ih =>
    rw [List.foldl_cons]
    exact ih _ (ids_mono_ingestStep idOf mk s e i h)

theorem foldl_ingest_settles {α : Type} (idOf : α → String) (mk : α → Option Article)
    (hid : ∀ e a, mk e = some a → a.id = idOf e)
    (l : List α) (s : Store) :
    ∀ e ∈ l, mk e = none ∨
      idOf e ∈ idsList (List.foldl (ingestStep idOf mk) s l) := by
  induction l generalizing s with
  | nil => intro e he; cases he
  | cons e0 l' ih =>
    intro e he
    rw [List.foldl_cons]
    rcases List.mem_cons.mp he with rfl | hmem
    · cases hmk : mk e with
      | none => exact Or.inl rfl
      | some a =>
        refine Or.inr (ids_mono_foldl_ingest idOf mk l' _ _ ?_)
        exact ids_mem_ingestStep idOf mk hid s e a hmk
    · exact ih _ e hmem

theorem foldl_ingest_master {α : Type} (idOf : α → String) (mk : α → Option Article)
    (hid : ∀ e a, mk e = some a → a.id = idOf e)
    (l : List α) (s : Store) :
    ∃ tail, (List.foldl (ingestStep idOf mk) s l).rows = s.rows ++ tail ∧
      List.Sublist (tail.map Row.art) (l.filterMap mk) ∧
      List.Pairwise (fun r1 r2 => r1.seq < r2.seq) tail ∧
      (∀ r ∈ tail, s.next ≤ r.seq) ∧
      (∀ r ∈ tail, ¬ r.art.id ∈ idsList s) := by
  induction l generalizing s with
  | nil =>
    exact ⟨[], by simp, by simp, List.Pairwise.nil, fun r hr => absurd hr
      (List.not_mem_nil r), fun r hr => absurd hr (List.not_mem_nil r)⟩
  | cons e l' ih =>
    rw [List.foldl_cons]
    by_cases hex : existsId s (idOf e) = true
    · have hstep : ingestStep idOf mk s e = s := by
        unfold ingestStep
        rw [if_pos hex]
      rw [hstep]
      obtain ⟨tail, h1, h2, h3, h4, h5⟩ := ih s
      refine ⟨tail, h1, ?_, h3, h4, h5⟩
      cases hmk : mk e with
      | none =>
        rw [List.filterMap_cons, hmk]
        exact h2
      | some a =>
        rw [List.filterMap_cons, hmk]
        exact List.Sublist.cons a h2
    · cases hmk : mk e with
      | none =>
        have hstep : ingestStep idOf mk s e = s := by
          unfold ingestStep
          rw [if_neg hex, hmk]
        rw [hstep]
        obtain ⟨tail, h1, h2, h3, h4, h5⟩ := ih s
        refine ⟨tail, h1, ?_, h3, h4, h5⟩
        rw [List.filterMap_cons, hmk]
        exact h2
      | some a =>
        have hstep : ingestStep idOf mk s e = insertArt s a := by
          unfold ingestStep
          rw [if_neg hex, hmk]
        rw [hstep]
        obtain ⟨tail, h1, h2, h3, h4, h5⟩ := ih (insertArt s a)
        refine ⟨⟨s.next, a⟩ :: tail, ?_, ?_, ?_, ?_, ?_⟩
        · rw [h1]
          simp [insertArt]
        · rw [List.filterMap_cons, hmk, List.map_cons]
          exact List.Sublist.cons₂ a h2
        · refine List.Pairwise.cons (fun r hr => ?_) h3
          have := h4 r hr
          simp only [insertArt] at this
          show s.next < r.seq
          omega
        · intro r hr
          rcases List.mem_cons.mp hr with rfl | hr'
          · exact Nat.le_refl _
          · have := h4 r hr'
            simp only [insertArt] at this
            omega
        · intro r hr
          rcases List.mem_cons.mp hr with rfl | hr'
          · rw [hid e a hmk]
            exact existsId_false_not_mem s (idOf e) (Bool.of_not_eq_true hex)
          · intro hmem
            refine h5 r hr' ?_
            rw [idsList_insertArt]
            exact List.mem_append_left _ hmem

theorem ids_mono_processFeed (o : IngestOracles) (cfg : FeedConfig) (s : Store)
    (i : String) (h : i ∈ idsList s) : i ∈ idsList (processFeed o cfg s) := by
  unfold processFeed
  cases cfg.kind with
  | youtube => exact ids_mono_foldl_ingest _ _ _ s i h
  | rss => exact ids_mono_foldl_ingest _ _ _ s i h

theorem vidNew_id (o : IngestOracles) (src : String) :
    ∀ v a, vidNew o src v = some a → a.id = vidId v := by
  intro v a h
  unfold vidNew at h
  cases htr : o.transcript v with
  | none =>
    rw [htr] at h
    cases h
  | some raw =>
    rw [htr] at h
    simp only [] at h
    by_cases hc : ((vidTitle o v).length ≥ 1 && o.validUrl (vidUrl v)) = true
    · rw [if_pos hc] at h
      cases h
      rfl
    · rw [if_neg hc] at h
      cases h

theorem rssNew_id (o : IngestOracles) (src : String) :
    ∀ e a, rssNew o src e = some a → a.id = rssId e := by
  intro e a h
  unfold rssNew at h
  by_cases hc : ((e.title.getD "No Title").length ≥ 1 &&
      o.validUrl (e.link.getD "")) = true
  · rw [if_pos hc] at h
    cases h
    rfl
  · rw [if_neg hc] at h
    cases h

theorem runIngestion_cons (o : IngestOracles) (f : FeedConfig)
    (fs : List FeedConfig) (s : Store) :
    runIngestion o (f :: fs) s = runIngestion o fs (processFeed o f s) := rfl

theorem processFeed_fix_of_superset (o : IngestOracles) (cfg : FeedConfig)
    (s t : Store)
    (hsub : ∀ i ∈ idsList (processFeed o cfg s), i ∈ idsList t) :
    processFeed o cfg t = t := by
  rcases cfg with ⟨csrc, curl, ckind⟩
  cases ckind with
  | youtube =>
    simp only [processFeed] at hsub ⊢
    apply foldl_ingest_fix
    intro e he
    rcases foldl_ingest_settles vidId (vidNew o csrc) (vidNew_id o csrc)
      _ s e he with hnone | hmem
    · exact Or.inl hnone
    · exact Or.inr (hsub _ hmem)
  | rss =>
    simp only [processFeed] at hsub ⊢
    apply foldl_ingest_fix
    intro e he
    rcases foldl_ingest_settles rssId (rssNew o csrc) (rssNew_id o csrc)
      _ s e he with hnone | hmem
    · exact Or.inl hnone
    · exact Or.inr (hsub _ hmem)

theorem runIngestion_fix (o : IngestOracles) (feeds : List FeedConfig) (t : Store)
    (h : ∀ cfg ∈ feeds, processFeed o cfg t = t) :
    runIngestion o feeds t = t := by
  induction feeds with
  | nil => rfl
  | cons f fs ih =>
    rw [runIngestion_cons, h f (List.mem_cons_self f fs)]
    exact ih fun cfg hc => h cfg (List.mem_cons_of_mem f hc)

theorem ids_mono_runIngestion (o : IngestOracles) (feeds : List FeedConfig)
    (s : Store) (i : String) (h : i ∈ idsList s) :
    i ∈ idsList (runIngestion o feeds s) := by
  induction feeds generalizing s with
  | nil => exact h
  | cons f fs ih =>
    rw [runIngestion_cons]
    exact ih _ (ids_mono_processFeed o f s i h)

theorem processFeed_fix_final (o : IngestOracles) (feeds : List FeedConfig)
    (s : Store) :
    ∀ cfg ∈ feeds,
      processFeed o cfg (runIngestion o feeds s) = runIngestion o feeds s := by
  induction feeds generalizing s with
  | nil =>
    intro cfg hc
    cases hc
  | cons f fs ih =>
    intro cfg hcfg
    rcases List.mem_cons.mp hcfg with rfl | hmem
    · refine processFeed_fix_of_superset o cfg s _ fun i hi => ?_
      rw [runIngestion_cons]
      exact ids_mono_runIngestion o fs _ i hi
    · rw [runIngestion_cons]
      exact ih (processFeed o f s) cfg hmem

theorem vidNew_flags (o : IngestOracles) (src : String) :
    ∀ v a, vidNew o src v = some a →
      a.processed = false ∧ a.synthesized = false := by
  intro v a h
  unfold vidNew at h
  cases htr : o.transcript v with
  | none =>
    rw [htr] at h
    cases h
  | some raw =>
    rw [htr] at h
    simp only [] at h
    by_cases hc : ((vidTitle o v).length ≥ 1 && o.validUrl (vidUrl v)) = true
    · rw [if_pos hc] at h
      cases h
      exact ⟨rfl, rfl⟩
    · rw [if_neg hc] at h
      cases h

theorem rssNew_flags (o : IngestOracles) (src : String) :
    ∀ e a, rssNew o src e = some a →
      a.processed = false ∧ a.synthesized = false := by
  intro e a h
  unfold rssNew at h
  by_cases hc : ((e.title.getD "No Title").length ≥ 1 &&
      o.validUrl (e.link.getD "")) = true
  · rw [if_pos hc] at h
    cases h
    exact ⟨rfl, rfl⟩
  · rw [if_neg hc] at h
    cases h

theorem mem_rows_ingestStep {α : Type} (idOf : α → String) (mk : α → Option Article)
    (s : Store) (e : α) (r : Row) (hr : r ∈ (ingestStep idOf mk s e).rows) :
    r ∈ s.rows ∨ ∃ a, mk e = some a ∧ r.art = a := by
  unfold ingestStep at hr
  by_cases hex : existsId s (idOf e) = true
  · rw [if_pos hex] at hr
    exact Or.inl hr
  · rw [if_neg hex] at hr
    cases hmk : mk e with
    | none =>
      rw [hmk] at hr
      exact Or.inl hr
    | some a =>
      rw [hmk] at hr
      simp only [insertArt, List.mem_append, List.mem_singleton] at hr
      rcases hr with hr | rfl
      · exact Or.inl hr
      · exact Or.inr ⟨a, rfl, rfl⟩

theorem mem_rows_foldl_ingest {α : Type} (idOf : α → String) (mk : α → Option Article)
    (l : List α) (s : Store) (r : Row)
    (hr : r ∈ (List.foldl (ingestStep idOf mk) s l).rows) :
    r ∈ s.rows ∨ ∃ e ∈ l, ∃ a, mk e = some a ∧ r.art = a := by
  induction l generalizing s with
  | nil => exact Or.inl hr
  | cons e l' ih =>
    rw [List.foldl_cons] at hr
    rcases ih _ hr with hmem | ⟨e', he', a, hmk, hart⟩
    · rcases mem_rows_ingestStep idOf mk s e r hmem with hmem' | ⟨a, hmk, hart⟩
      · exact Or.inl hmem'
      · exact Or.inr ⟨e, List.mem_cons_self e l', a, hmk, hart⟩
    · exact Or.inr ⟨e', List.mem_cons_of_mem e he', a, hmk, hart⟩

theorem weakInv_fresh (a : Article) (hp : a.processed = false)
    (hs : a.synthesized = false) : weakInv a = true := by
  simp [weakInv, hp, hs]

theorem processFeed_weakInv (o : IngestOracles) (cfg : FeedConfig) (s : Store)
    (hinv : ∀ r ∈ s.rows, weakInv r.art = true) :
    ∀ r ∈ (processFeed o cfg s).rows, weakInv r.art = true := by
  intro r hr
  rcases cfg with ⟨csrc, curl, ckind⟩
  cases ckind with
  | youtube =>
    simp only [processFeed] at hr
    rcases mem_rows_foldl_ingest vidId (vidNew o csrc) _ s r hr with
      hmem | ⟨v, _, a, hmk, hart⟩
    · exact hinv r hmem
    · obtain ⟨hp, hs⟩ := vidNew_flags o csrc v a hmk
      rw [hart]
      exact weakInv_fresh a hp hs
  | rss =>
    simp only [processFeed] at hr
    rcases mem_rows_foldl_ingest rssId (rssNew o csrc) _ s r hr with
      hmem | ⟨e, _, a, hmk, hart⟩
    · exact hinv r hmem
    · obtain ⟨hp, hs⟩ := rssNew_flags o csrc e a hmk
      rw [hart]
      exact weakInv_fresh a hp hs

theorem runIngestion_weakInv (o : IngestOracles) (feeds : List FeedConfig)
    (s : Store) (hinv : ∀ r ∈ s.rows, weakInv r.art = true) :
    ∀ r ∈ (runIngestion o feeds s).rows, weakInv r.art = true := by
  induction feeds generalizing s with
  | nil => exact hinv
  | cons f fs ih =>
    rw [runIngestion_cons]
    exact ih _ (processFeed_weakInv o f s hinv)

/-! ## Synthesis lemmas -/

theorem synthesis_job_cases (o : SynthOracles) (st : SynthState) :
    synthesis_job o st = st ∨
      ∃ rep : Report, synthesis_job o st =
        { store := markSynth st.store (batchIds o.now st.store.rows),
          reports := st.reports ++ [rep] } := by
  unfold synthesis_job
  split
  · exact Or.inl rfl
  · split
    · exact Or.inl rfl
    · split
      · exact Or.inl rfl
      · split
        · exact Or.inl rfl
        · split
          · exact Or.inl rfl
          · exact Or.inr ⟨_, rfl⟩

theorem synthesis_job_audio_fail (o : SynthOracles) (st : SynthState)
    (ha : ∀ s, o.genAudio s = none) : synthesis_job o st = st := by
  unfold synthesis_job
  split
  · rfl
  · split
    · rfl
    · split
      · rfl
      · split
        · rfl
        · rename_i script heq
          rw [ha script]

theorem synthesis_job_reports_eq (o : SynthOracles) (st : SynthState)
    (h : (synthesis_job o st).reports = st.reports) : synthesis_job o st = st := by
  rcases synthesis_job_cases o st with heq | ⟨rep, heq⟩
  · exact heq
  · rw [heq] at h
    simp only [List.append_eq_nil] at h
    exfalso
    have := congrArg List.length h
    simp at this

theorem aiBriefQ_mem (now : Int) (rows : List Row) (b : Row)
    (h : aiBriefQ now rows = some b) :
    b ∈ rows ∧ b.art.source = briefSource := by
  unfold aiBriefQ at h
  obtain ⟨ys, hys⟩ := List.head?_eq_some_iff.mp h
  have hmem : b ∈ (rows.filter fun r =>
      r.art.source == briefSource && withinWindow now r.art.published_at).reverse := by
    rw [hys]
    exact List.mem_cons_self b ys
  rw [List.mem_reverse] at hmem
  obtain ⟨hrows, hp⟩ := List.mem_filter.mp hmem
  rw [Bool.and_eq_true] at hp
  exact ⟨hrows, beq_iff_eq.mp hp.1⟩

theorem allRecordsQ_mem (rows : List Row) (r : Row) (h : r ∈ allRecordsQ rows) :
    r ∈ rows ∧ r.art.processed = true ∧ r.art.synthesized = false := by
  unfold allRecordsQ at h
  rw [List.mem_reverse] at h
  obtain ⟨hrows, hp⟩ := List.mem_filter.mp h
  rw [Bool.and_eq_true] at hp
  exact ⟨hrows, hp.1, by simpa using hp.2⟩

theorem batchIds_sound (now : Int) (rows : List Row) (i : String)
    (hi : i ∈ batchIds now rows) :
    (∃ r ∈ rows, r.art.id = i ∧ r.art.processed = true) ∨
      ∃ b, aiBriefQ now rows = some b ∧ b.art.id = i := by
  unfold batchIds at hi
  have hall : i ∈ (allRecordsQ rows).map (fun r => r.art.id) →
      ∃ r ∈ rows, r.art.id = i ∧ r.art.processed = true := by
    intro hmem
    obtain ⟨r, hr, rfl⟩ := List.mem_map.mp hmem
    obtain ⟨hrows, hp, _⟩ := allRecordsQ_mem rows r hr
    exact ⟨r, hrows, rfl, hp⟩
  cases hb : aiBriefQ now rows with
  | none =>
    rw [hb] at hi
    exact Or.inl (hall hi)
  | some b =>
    rw [hb] at hi
    simp only [] at hi
    by_cases hc : ((allRecordsQ rows).map fun r => r.art.id).contains b.art.id = true
    · rw [if_pos hc] at hi
      exact Or.inl (hall hi)
    · rw [if_neg hc] at hi
      rcases List.mem_append.mp hi with hmem | hmem
      · exact Or.inl (hall hmem)
      · exact Or.inr ⟨b, rfl, (List.mem_singleton.mp hmem).symm⟩

theorem markSynth_weakInv (s : Store) (now : Int)
    (hn : (s.rows.map fun r => r.art.id).Nodup)
    (hinv : ∀ r ∈ s.rows, weakInv r.art = true) :
    ∀ r ∈ (markSynth s (batchIds now s.rows)).rows, weakInv r.art = true := by
  intro r hr
  unfold markSynth at hr
  simp only [List.mem_map] at hr
  obtain ⟨r0, hr0, rfl⟩ := hr
  by_cases hc : (batchIds now s.rows).contains r0.art.id = true
  · rw [if_pos hc]
    have hi : r0.art.id ∈ batchIds now s.rows := List.elem_iff.mp hc
    have hinv0 := hinv r0 hr0
    rw [weakInv, Bool.and_eq_true] at hinv0
    rcases batchIds_sound now s.rows r0.art.id hi with
      ⟨r1, hr1, hid, hp⟩ | ⟨b, hbq, hid⟩
    · have : r1 = r0 := List.inj_on_of_nodup_map hn hr1 hr0 hid
      rw [this] at hp
      simp only [weakInv, Bool.and_eq_true]
      exact ⟨hinv0.1, by simp [hp]⟩
    · obtain ⟨hbrows, hbsrc⟩ := aiBriefQ_mem now s.rows b hbq
      have : b = r0 := List.inj_on_of_nodup_map hn hbrows hr0 hid
      rw [this] at hbsrc
      simp only [weakInv, Bool.and_eq_true]
      exact ⟨hinv0.1, by simp [hbsrc]⟩
  · rw [if_neg hc]
    exact hinv r0 hr0

theorem llmBatch_eq_amended (now : Int) (rows : List Row) :
    llmBatch now rows = specBatchAmended now rows := by
  unfold llmBatch specBatchAmended unionById
  cases hb : aiBriefQ now rows with
  | none => simp
  | some b =>
    simp only []
    by_cases hdup : ((allRecordsQ rows).filter fun r =>
        r.art.source != briefSource).any (fun r => r.art.id == b.art.id) = true
    · rw [if_pos hdup]
      simp [List.filter_cons, hdup]
      obtain ⟨x, hx, hxid⟩ := List.any_eq_true.mp hdup
      obtain ⟨hxmem, hxsrc⟩ := List.mem_filter.mp hx
      exact ⟨x, hxmem, by simpa using hxsrc, beq_iff_eq.mp hxid⟩
    · rw [if_neg hdup]
      simp only [Option.toList_some, List.filter_cons, List.filter_nil]
      rw [Bool.of_not_eq_true hdup]
      rfl

/-! ## Guard lemmas -/

theorem distillation_job_blocked (lock : GuardToken) (selfPid : Nat)
    (llm : String → Option LlmResult) (arts : List Article)
    (h : guardBlocks lock selfPid = true) :
    distillation_job lock selfPid llm arts =
      { arts := arts, llmCalls := [], tokenWritten := none } := by
  unfold distillation_job
  rw [if_pos h]

theorem distillation_job_open (lock : GuardToken) (selfPid : Nat)
    (llm : String → Option LlmResult) (arts : List Article)
    (h : guardBlocks lock selfPid = false) :
    distillation_job lock selfPid llm arts =
      { arts := ((arts.filter fun a => !a.processed).foldl
          (distillStep llm) (arts, [])).1,
        llmCalls := ((arts.filter fun a => !a.processed).foldl
          (distillStep llm) (arts, [])).2,
        tokenWritten := some selfPid } := by
  unfold distillation_job
  rw [if_neg (by rw [h]; exact Bool.false_ne_true)]

theorem guardBlocks_iff (lock : GuardToken) (selfPid : Nat) :
    guardBlocks lock selfPid = true ↔
      ∃ p, lock = some (some p) ∧ p ≠ selfPid := by
  rcases lock with _ | (_ | p)
  · simp [guardBlocks]
  · simp [guardBlocks]
  · simp only [guardBlocks, ne_eq, bne_iff_ne]
    constructor
    · intro h
      exact ⟨p, rfl, h⟩
    · rintro ⟨q, hq, hne⟩
      cases Option.some.inj (Option.some.inj hq)
      exact hne

/-! ## Claim theorems -/

/-- C1, counterexample: with a single live-briefing row that is processed,
unsynthesized and published outside the 24-hour window, the claimed batch
(union by id of all processed-unsynthesized rows with the windowed brief
row) contains that row, but the batch the code hands to report/script
generation (`llm_records`) is empty, because `synthesis_job` filters every
'The AI Daily Brief' row out of `all_records`. -/
theorem c1_batch_cex :
    llmBatch 1000000 exRowsStale = [] ∧
      specBatchClaimed 1000000 exRowsStale = exRowsStale ∧
      exRowsStale ≠ [] := by
  refine ⟨by decide, by decide, by decide⟩

/-- C1, amended: the batch handed to report and script generation is the
union by id of (a) the processed, unsynthesized rows whose source is NOT
'The AI Daily Brief', most-recent-first, and (b) the most-recent
live-briefing row published within the trailing 24-hour window regardless
of its flags, with the live-briefing row appearing only once; stale
unsynthesized live-briefing rows are excluded from the generated batch. -/
theorem c1_batch_amended (now : Int) (rows : List Row) :
    llmBatch now rows = specBatchAmended now rows :=
  llmBatch_eq_amended now rows

/-- C2: the synthesis commit is all-or-nothing — if audio rendering always
fails, the invocation leaves the state untouched (no Report row, no
`synthesized` flag change); if no report was appended nothing changed at
all; and in general a run either changes nothing or appends exactly one
report while setting `synthesized` on exactly the batch ids, together. -/
theorem c2_atomic_commit (o : SynthOracles) (st : SynthState) :
    ((∀ s, o.genAudio s = none) → synthesis_job o st = st) ∧
    ((synthesis_job o st).reports = st.reports → synthesis_job o st = st) ∧
    (synthesis_job o st = st ∨
      ∃ rep : Report, synthesis_job o st =
        { store := markSynth st.store (batchIds o.now st.store.rows),
          reports := st.reports ++ [rep] }) :=
  ⟨synthesis_job_audio_fail o st, synthesis_job_reports_eq o st,
    synthesis_job_cases o st⟩

/-- C2 witness: with oracles whose audio step always fails (after report
and script generation succeeded), a concrete synthesis run returns the
state unchanged. -/
theorem c2_atomic_commit_witness :
    synthesis_job exSynthNoAudio exStFresh = exStFresh :=
  (c2_atomic_commit exSynthNoAudio exStFresh).1 fun _ => rfl

/-- C3, counterexample: on a store holding one unprocessed live-briefing
row published inside the 24-hour window, a successful synthesis run sets
`synthesized = true` while `processed` is still `false` (the brief query
has no `processed = 1` filter), violating the claimed invariant
`synthesized = true → processed = true`. -/
theorem c3_invariant_cex :
    (synthesis_job exSynthOk exStFresh).store.rows.map
      (fun r => (r.art.processed, r.art.synthesized)) = [(false, true)] := by
  decide

/-- C3, amended: every pipeline operation preserves the weakened
invariant `weakInv`: `processed` implies a category or blank text, and
`synthesized` implies `processed` unless the item comes from the
live-briefing source (which `synthesis_job` may mark synthesized while
still unprocessed). -/
theorem c3_invariant_amended :
    (∀ (o : IngestOracles) (feeds : List FeedConfig) (s : Store),
      (∀ r ∈ s.rows, weakInv r.art = true) →
      ∀ r ∈ (runIngestion o feeds s).rows, weakInv r.art = true) ∧
    (∀ (lock : GuardToken) (selfPid : Nat) (llm : String → Option LlmResult)
      (arts : List Article), (arts.map Article.id).Nodup →
      (∀ a ∈ arts, weakInv a = true) →
      ∀ a ∈ (distillation_job lock selfPid llm arts).arts, weakInv a = true) ∧
    (∀ (o : SynthOracles) (st : SynthState),
      (st.store.rows.map fun r => r.art.id).Nodup →
      (∀ r ∈ st.store.rows, weakInv r.art = true) →
      ∀ r ∈ (synthesis_job o st).store.rows, weakInv r.art = true) := by
  refine ⟨runIngestion_weakInv, ?_, ?_⟩
  · intro lock selfPid llm arts hn hinv a ha
    by_cases hg : guardBlocks lock selfPid = true
    · rw [distillation_job_blocked lock selfPid llm arts hg] at ha
      exact hinv a ha
    · rw [distillation_job_open lock selfPid llm arts
        (Bool.of_not_eq_true hg)] at ha
      exact foldl_distill_weakInv llm arts _ (arts, []) hn
        (fun r hr => (List.mem_filter.mp hr).1) rfl hinv a ha
  · intro o st hn hinv r hr
    rcases synthesis_job_cases o st with heq | ⟨rep, heq⟩
    · rw [heq] at hr
      exact hinv r hr
    · rw [heq] at hr
      exact markSynth_weakInv st.store o.now hn hinv r hr

/-- C3 witness: the synthesis conjunct applied to a concrete one-row
store satisfying the weakened invariant. -/
theorem c3_invariant_amended_witness :
    ∀ r ∈ (synthesis_job exSynthOk exStFresh).store.rows,
      weakInv r.art = true :=
  c3_invariant_amended.2.2 exSynthOk exStFresh (by decide) (by decide)

/-- C4, counterexample: with a readable guard token naming pid 1 while no
process is alive and the caller is pid 2, the spec's abort condition (the
named process must be alive) says proceed, but the code aborts: it never
checks liveness, so the invocation returns every article untouched and
performs no language-model call and no token write. -/
theorem c4_guard_cex :
    guardBlocksClaimed (fun _ => false) (some (some 1)) 2 = false ∧
    guardBlocks (some (some 1)) 2 = true ∧
    distillation_job (some (some 1)) 2 exLlm [exArtGood] =
      { arts := [exArtGood], llmCalls := [], tokenWritten := none } := by
  refine ⟨rfl, rfl, ?_⟩
  decide

/-- C4, amended: the worker aborts (touching no items, writing no token)
exactly when the guard token is readable and names a pid other than the
caller's, regardless of whether that process is alive; otherwise —
including when the token is unreadable or absent — it proceeds and
records its own pid in the token before doing any work. -/
theorem c4_guard_amended (lock : GuardToken) (selfPid : Nat)
    (llm : String → Option LlmResult) (arts : List Article) :
    (guardBlocks lock selfPid = true →
      distillation_job lock selfPid llm arts =
        { arts := arts, llmCalls := [], tokenWritten := none }) ∧
    (guardBlocks lock selfPid = false →
      (distillation_job lock selfPid llm arts).tokenWritten = some selfPid) ∧
    (guardBlocks lock selfPid = true ↔
      ∃ p, lock = some (some p) ∧ p ≠ selfPid) := by
  refine ⟨distillation_job_blocked lock selfPid llm arts, ?_,
    guardBlocks_iff lock selfPid⟩
  intro h
  rw [distillation_job_open lock selfPid llm arts h]

/-- C4 witness: a blocked invocation with a token naming a foreign pid,
and an unblocked one with no token that records its own pid. -/
theorem c4_guard_amended_witness :
    distillation_job (some (some 1)) 2 exLlm [exArtBlank] =
      { arts := [exArtBlank], llmCalls := [], tokenWritten := none } ∧
    (distillation_job none 7 exLlm [exArtBlank]).tokenWritten = some 7 :=
  ⟨(c4_guard_amended (some (some 1)) 2 exLlm [exArtBlank]).1 (by decide),
    (c4_guard_amended none 7 exLlm [exArtBlank]).2.1 (by decide)⟩

/-- C5: a distillation run (not blocked by the guard) marks an
unprocessed item with empty/whitespace-only `raw_text` as processed,
leaves its category null, and never hands any blank text to the
language-model service. -/
theorem c5_empty_text (lock : GuardToken) (selfPid : Nat)
    (llm : String → Option LlmResult) (arts : List Article) (a : Article)
    (hg : guardBlocks lock selfPid = false)
    (hn : (arts.map Article.id).Nodup) (ha : a ∈ arts)
    (hp : a.processed = false) (hb : isBlank a.raw_text = true)
    (ht : a.industry_tag = none) :
    (∃ a', getById (distillation_job lock selfPid llm arts).arts a.id = some a' ∧
      a'.processed = true ∧ a'.industry_tag = none) ∧
    ∀ t ∈ (distillation_job lock selfPid llm arts).llmCalls,
      isBlank t = false := by
  rw [distillation_job_open lock selfPid llm arts hg]
  constructor
  · refine ⟨{ a with processed := true }, ?_, rfl, ht⟩
    exact distill_run_blank llm arts a hn ha hp hb
  · intro t ht'
    rcases foldl_distill_calls llm _ (arts, []) t ht' with hmem | ⟨rec, _, rfl, hbl⟩
    · cases hmem
    · exact hbl

/-- C5 witness: on a three-item store the blank item ends processed with
null category and only the two non-blank texts reach the language model. -/
theorem c5_empty_text_witness :
    (∃ a', getById (distillation_job none 7 exLlm
        [exArtBlank, exArtGood, exArtFail]).arts exArtBlank.id = some a' ∧
      a'.processed = true ∧ a'.industry_tag = none) ∧
    ∀ t ∈ (distillation_job none 7 exLlm
        [exArtBlank, exArtGood, exArtFail]).llmCalls, isBlank t = false :=
  c5_empty_text none 7 exLlm [exArtBlank, exArtGood, exArtFail] exArtBlank
    (by decide) (by decide) (by decide) (by decide) (by decide) (by decide)

/-- C6: when the language-model call for an item ultimately fails, that
item is left entirely unchanged (its `processed` flag still false), while
any other unprocessed item whose call succeeds (or whose text is blank)
still ends the same run with `processed = true` — one item's permanent
failure never aborts the rest of the batch. -/
theorem c6_per_item_failure (lock : GuardToken) (selfPid : Nat)
    (llm : String → Option LlmResult) (arts : List Article) (a b : Article)
    (hg : guardBlocks lock selfPid = false)
    (hn : (arts.map Article.id).Nodup)
    (ha : a ∈ arts) (_hpa : a.processed = false)
    (hba : isBlank a.raw_text = false) (hla : llm a.raw_text = none)
    (hb : b ∈ arts) (hpb : b.processed = false)
    (hok : isBlank b.raw_text = true ∨ ∃ r, llm b.raw_text = some r) :
    getById (distillation_job lock selfPid llm arts).arts a.id = some a ∧
    ∃ y, getById (distillation_job lock selfPid llm arts).arts b.id = some y ∧
      y.processed = true := by
  rw [distillation_job_open lock selfPid llm arts hg]
  exact ⟨distill_run_fail llm arts a hn ha hba hla,
    distill_run_success llm arts b hn hb hpb hok⟩

/-- C6 witness: in a concrete batch the failing item keeps `processed =
false` and all its fields, while the succeeding item ends processed. -/
theorem c6_per_item_failure_witness :
    getById (distillation_job none 7 exLlm
      [exArtBlank, exArtGood, exArtFail]).arts exArtFail.id = some exArtFail ∧
    ∃ y, getById (distillation_job none 7 exLlm
      [exArtBlank, exArtGood, exArtFail]).arts exArtGood.id = some y ∧
      y.processed = true :=
  c6_per_item_failure none 7 exLlm [exArtBlank, exArtGood, exArtFail]
    exArtFail exArtGood (by decide) (by decide) (by decide) (by decide)
    (by decide) (by decide) (by decide) (by decide)
    (Or.inr ⟨⟨"AI", "sum"⟩, by decide⟩)

/-- C7: within one collection pass for a source, when the presented
entries are most-recent-first by their derived publish time, the newly
persisted rows are appended oldest-to-newest: among the rows the pass
inserts, the store-assigned `insertion_sequence` (rowid) increases
monotonically with `published_at`, so the most recently published
inserted row carries the highest rowid (all above every pre-existing
rowid bound `next`). -/
theorem c7_ordering (o : IngestOracles) (cfg : FeedConfig) (s : Store)
    (hp : List.Pairwise (fun a b => b.published_at ≤ a.published_at)
      (passArts o cfg)) :
    ∃ tail, (processFeed o cfg s).rows = s.rows ++ tail ∧
      (∀ r ∈ tail, s.next ≤ r.seq) ∧
      List.Pairwise (fun r1 r2 => r1.seq < r2.seq ∧
        r1.art.published_at ≤ r2.art.published_at) tail := by
  rcases cfg with ⟨csrc, curl, ckind⟩
  cases ckind with
  | youtube =>
    simp only [processFeed]
    simp only [passArts] at hp
    obtain ⟨tail, h1, h2, h3, h4, _⟩ := foldl_ingest_master vidId
      (vidNew o csrc) (vidNew_id o csrc) (presentedVids o curl).reverse s
    refine ⟨tail, h1, h4, ?_⟩
    have hsub : List.Sublist (tail.map Row.art)
        ((presentedVids o curl).filterMap (vidNew o csrc)).reverse := by
      rw [← List.filterMap_reverse]
      exact h2
    have hrev : List.Pairwise (fun a b : Article =>
        a.published_at ≤ b.published_at)
        ((presentedVids o curl).filterMap (vidNew o csrc)).reverse :=
      List.pairwise_reverse.mpr hp
    have hpub : List.Pairwise (fun a b : Article =>
        a.published_at ≤ b.published_at) (tail.map Row.art) :=
      List.Pairwise.sublist hsub hrev
    rw [List.pairwise_map] at hpub
    exact List.Pairwise.and h3 hpub
  | rss =>
    simp only [processFeed]
    simp only [passArts] at hp
    obtain ⟨tail, h1, h2, h3, h4, _⟩ := foldl_ingest_master rssId
      (rssNew o csrc) (rssNew_id o csrc) (presentedEntries o curl).reverse s
    refine ⟨tail, h1, h4, ?_⟩
    have hsub : List.Sublist (tail.map Row.art)
        ((presentedEntries o curl).filterMap (rssNew o csrc)).reverse := by
      rw [← List.filterMap_reverse]
      exact h2
    have hrev : List.Pairwise (fun a b : Article =>
        a.published_at ≤ b.published_at)
        ((presentedEntries o curl).filterMap (rssNew o csrc)).reverse :=
      List.pairwise_reverse.mpr hp
    have hpub : List.Pairwise (fun a b : Article =>
        a.published_at ≤ b.published_at) (tail.map Row.art) :=
      List.Pairwise.sublist hsub hrev
    rw [List.pairwise_map] at hpub
    exact List.Pairwise.and h3 hpub

/-- C7 witness: a concrete channel pass presenting two videos
newest-first inserts them oldest-first with rowids increasing with
publish time. -/
theorem c7_ordering_witness :
    ∃ tail, (processFeed exIngOracles exCfgYt exEmptyStore).rows =
      exEmptyStore.rows ++ tail ∧
      (∀ r ∈ tail, exEmptyStore.next ≤ r.seq) ∧
      List.Pairwise (fun r1 r2 => r1.seq < r2.seq ∧
        r1.art.published_at ≤ r2.art.published_at) tail :=
  c7_ordering exIngOracles exCfgYt exEmptyStore (by decide)

/-- C8: running the Ingestion Collector a second time against the same
sources (deterministic oracles) inserts nothing: the second pass is the
identity on the store, because every entry is either already present by
id (skipped by the existence check) or fails the same way again. -/
theorem c8_dedup_idempotent (o : IngestOracles) (feeds : List FeedConfig)
    (s : Store) :
    runIngestion o feeds (runIngestion o feeds s) = runIngestion o feeds s :=
  runIngestion_fix o feeds _ (processFeed_fix_final o feeds s)

/-- C9, counterexample: ingesting a video with platform id `v1` derives
the article id `yt:v1`, not `video:v1` as the claim words it. -/
theorem c9_video_id_cex :
    (processFeed exIngOracles exCfgYt exEmptyStore).rows.map
      (fun r => r.art.id) = ["yt:v1", "yt:v2"] ∧
    ("yt:v1" : String) ≠ "video:v1" := by
  refine ⟨by decide, by decide⟩

/-- C9, amended: every row a video-channel pass inserts has id
`yt:<platform-id>` for one of the presented platform ids, this id is the
primary key checked immediately before insert, and a collision with an
already-stored id means the entry is skipped — no inserted row ever
duplicates a pre-existing id. -/
theorem c9_video_id_amended (o : IngestOracles) (src url : String) (s : Store) :
    ∃ tail, (processFeed o ⟨src, url, .youtube⟩ s).rows = s.rows ++ tail ∧
      ∀ r ∈ tail, (∃ v ∈ presentedVids o url, r.art.id = vidId v) ∧
        ¬ r.art.id ∈ idsList s := by
  simp only [processFeed]
  obtain ⟨tail, h1, h2, _, _, h5⟩ := foldl_ingest_master vidId
    (vidNew o src) (vidNew_id o src) (presentedVids o url).reverse s
  refine ⟨tail, h1, fun r hr => ⟨?_, h5 r hr⟩⟩
  have hmem : r.art ∈ (presentedVids o url).reverse.filterMap (vidNew o src) :=
    List.Sublist.subset h2 (List.mem_map_of_mem Row.art hr)
  obtain ⟨v, hv, hmk⟩ := List.mem_filterMap.mp hmem
  exact ⟨v, List.mem_reverse.mp hv, (vidNew_id o src v r.art hmk).symm ▸ rfl⟩

/-- C10: when a distillation run marks an empty-text item as processed,
the `processed` flag is the only field that changes — the item keeps the
summary assigned at ingestion and every other field verbatim. -/
theorem c10_empty_text_frame (lock : GuardToken) (selfPid : Nat)
    (llm : String → Option LlmResult) (arts : List Article) (a : Article)
    (hg : guardBlocks lock selfPid = false)
    (hn : (arts.map Article.id).Nodup) (ha : a ∈ arts)
    (hp : a.processed = false) (hb : isBlank a.raw_text = true) :
    getById (distillation_job lock selfPid llm arts).arts a.id =
      some { a with processed := true } := by
  rw [distillation_job_open lock selfPid llm arts hg]
  exact distill_run_blank llm arts a hn ha hp hb

/-- C10 witness: the blank item of a concrete batch ends as exactly its
ingested record with only `processed` flipped to true. -/
theorem c10_empty_text_frame_witness :
    getById (distillation_job none 7 exLlm
      [exArtBlank, exArtGood, exArtFail]).arts exArtBlank.id =
      some { exArtBlank with processed := true } :=
  c10_empty_text_frame none 7 exLlm [exArtBlank, exArtGood, exArtFail]
    exArtBlank (by decide) (by decide) (by decide) (by decide) (by decide)
